import Mathlib

/-!
Verification of the natural-language specification of the climada_python
repository against its code.

Part 1 embeds `climada/util/value_representation.py` (present in the source
tree): `sig_dig`, `value_to_monetary_unit` and `val_to_cat`.  Python floats
are modelled over exact rationals (`ℚ`); Python's insertion-ordered `dict`s
are modelled as association lists in insertion order.

Part 2 models the global uncertainty and sensitivity analysis (GUSA) engine
(`UncVar`, the Saltelli-style sample design, the evaluation orchestrator).
Its source module is not part of this source tree — only its test file
`climada/engine/uncertainty/test/test_uncertainty.py` is — so those
definitions are modelled from the spec, as marked in their doc comments.
-/

/-! ## Arithmetic helpers: floor logarithms, base 10

`math.log10` returns a real number; the code below only ever consumes such
logarithms through integer floors, so the embedding computes those floors
directly.  The recursions carry an explicit fuel argument (first argument)
so that they are structural; fuel `n` is always enough for an input `n`
because each step divides the input by 10. -/

/-- Fuelled `⌊log10 n⌋` for naturals: 0 for `n < 10`, else one more than the
value at `n / 10`. -/
def natLog10Aux : ℕ → ℕ → ℕ
  | 0, _ => 0
  | fuel + 1, n => if n < 10 then 0 else natLog10Aux fuel (n / 10) + 1

/-- `⌊log10 n⌋` for `n ≥ 1` (and 0 at 0). -/
def natLog10 (n : ℕ) : ℕ := natLog10Aux n n

/-- Fuelled `⌈log10 n⌉` for naturals: 0 for `n ≤ 1`, else one more than the
value at `⌈n / 10⌉`. -/
def natClog10Aux : ℕ → ℕ → ℕ
  | 0, _ => 0
  | fuel + 1, n => if n ≤ 1 then 0 else natClog10Aux fuel ((n + 9) / 10) + 1

/-- `⌈log10 n⌉`: the least `k` with `n ≤ 10 ^ k`. -/
def natClog10 (n : ℕ) : ℕ := natClog10Aux n n

/-- `⌊log10 q⌋` for a positive rational, mirroring the structure of
`Int.log 10`: for `q ≥ 1` the floor log of `⌊q⌋`, otherwise the negated
ceiling log of `⌈q⁻¹⌉`. -/
def floorLog10 (q : ℚ) : ℤ :=
  if 1 ≤ q then (natLog10 ⌊q⌋.toNat : ℤ) else -(natClog10 ⌈q⁻¹⌉.toNat : ℤ)

/-! ## climada/util/value_representation.py -/

/-- Round-half-to-even of a rational to an integer: the rounding performed by
`np.round(x)` (decimals = 0), used on line 46 of value_representation.py. -/
def roundHalfEven (q : ℚ) : ℤ :=
  if q - ⌊q⌋ < 1 / 2 then ⌊q⌋
  else if 1 / 2 < q - ⌊q⌋ then ⌊q⌋ + 1
  else if ⌊q⌋ % 2 = 0 then ⌊q⌋ else ⌊q⌋ + 1

/-- Number of fractional digits Python prints for a float of value `x` with
reduced denominator `d`: the least `k` with `d ∣ 10 ^ k` (a float value has
`d = 2 ^ a`, so such a `k ≤ d` exists), but at least 1, because `str` of a
float always prints one fractional digit (`str(0.0) = "0.0"`). -/
def fracDigits (d : ℕ) : ℕ :=
  (List.range (d + 1)).findIdx (fun k => 10 ^ k % d == 0)

/-- Number of decimal digits of a natural number, with 1 for 0 (printed "0"):
`1 + #{k ≥ 1 | 10 ^ k ≤ n}`. -/
def intDigitCount (n : ℕ) : ℕ :=
  1 + (List.range (n + 1)).countP (fun k => 0 < k && 10 ^ k ≤ n)

/-- `len(str(x).replace(".", ""))` (value_representation.py line 42) for a
float `x` printed in fixed notation: an optional minus sign, the integer-part
digits, and the fractional digits.  In particular `str(0.0) = "0.0"` gives 2. -/
def num_of_digits (x : ℚ) : ℕ :=
  (if x < 0 then 1 else 0) + intDigitCount ⌊|x|⌋.toNat + max 1 (fracDigits x.den)

/-- The error raised by `math.log10` on a non-positive argument. -/
inductive MathError where
  | domainError
  deriving DecidableEq, Repr

/-- `sig_dig` (value_representation.py lines 24-48): round `x` to `n_sig_dig`
significant digits.  If the guard `n_sig_dig >= num_of_digits` holds, `x` is
returned unchanged; otherwise the code computes
`n = floor(log10(abs(x)) + 1 - n_sig_dig)` — which raises a math domain
`ValueError` when `x = 0` — and returns `round(x * 10^(-n)) * 10^n`.  The
float and `decimal.Decimal` arithmetic of that branch is modelled exactly
over `ℚ`; for `x ≠ 0`, `⌊log10 |x| + 1 - n_sig_dig⌋ = floorLog10 |x| + 1 -
n_sig_dig`. -/
def sig_dig (x : ℚ) (n_sig_dig : ℤ) : Except MathError ℚ :=
  if (num_of_digits x : ℤ) ≤ n_sig_dig then .ok x
  else if x = 0 then .error .domainError
  else
    let n : ℤ := floorLog10 |x| + 1 - n_sig_dig
    .ok ((roundHalfEven (x * (10 : ℚ) ^ (-n)) : ℚ) * (10 : ℚ) ^ n)

/-- The module-level `ABBREV` dict (value_representation.py lines 17-21), in
insertion order. -/
def ABBREV : List (ℤ × String) :=
  [(1, ""), (1000, "K"), (1000000, "M"), (1000000000, "Bn"),
   (1000000000000, "Tn")]

/-- The value whose log10 is appended to `exponents` for one element of
`values` (value_representation.py lines 109-114): `0` is appended for a zero
value (i.e. the log of `1`), else `log10(abs(val))`; the proxy keeps
`10 ^ exponent` instead of the exponent itself. -/
def expProxy (val : ℚ) : ℚ := if val = 0 then 1 else |val|

/-- `avg_exp = math.floor((max_exp + min_exp) / 2)` (line 119) for a nonempty
`values` list `v :: vs`: with `M` and `m` the largest and smallest exponent
proxies, `max_exp + min_exp = log10 (M * m)`, and
`⌊log10 (M * m) / 2⌋ = ⌊⌊log10 (M * m)⌋ / 2⌋ = (floorLog10 (M * m)).fdiv 2`. -/
def avg_exp (v : ℚ) (vs : List ℚ) : ℤ :=
  let M := vs.foldl (fun a b => max a (expProxy b)) (expProxy v)
  let m := vs.foldl (fun a b => min a (expProxy b)) (expProxy v)
  (floorLog10 (M * m)).fdiv 2

/-- `thsder = int(10 ** mil_exp)` (line 123): exact for `0 ≤ mil_exp ≤ 22`
(where the double `10.0 ** mil_exp` is exact), and 0 for negative `mil_exp`
(`int` truncates a float below 1 to 0). -/
def thsderOf (mil_exp : ℤ) : ℤ :=
  if 0 ≤ mil_exp then 10 ^ mil_exp.toNat else 0

/-- `value_to_monetary_unit` (value_representation.py lines 73-136) on the
default `n_sig_dig=None` path (no post-rounding), over exact rationals, with
the `abbreviations` dict as an association list in insertion order.
`none` models the Python exceptions outside the claims' scope: `max()` on an
empty `values` list, `list(...)[-1]` on an empty dict, and a zero divisor
(where `np.ndarray` division would produce infinities, which `ℚ` cannot
represent).  The `LOGGER.warning` side effect carries no data and is not
modelled.  On a `KeyError` — `thsder` not a key — the code rebinds both the
divisor and the name to the LAST `(key, name)` item of the dict. -/
def value_to_monetary_unit (values : List ℚ) (abbreviations : List (ℤ × String)) :
    Option (List ℚ × String) :=
  match values with
  | [] => none
  | v :: vs =>
    let mil_exp := 3 * ((avg_exp v vs).fdiv 3)
    let thsder := thsderOf mil_exp
    let pair? : Option (ℤ × String) :=
      match abbreviations.find? (fun p => p.1 == thsder) with
      | some p => some (thsder, p.2)
      | none => abbreviations.getLast?
    match pair? with
    | none => none
    | some (t, nm) =>
      if t = 0 then none
      else some ((v :: vs).map (fun x => x / (t : ℚ)), nm)

/-- An `abbreviations` mapping whose insertion order is not ascending in the
keys, admissible as the `abbreviations` argument of
`value_to_monetary_unit`. -/
def customAbbrev : List (ℤ × String) := [(1000000, "M"), (1000, "K"), (1, "")]

/-- `np.unique` on a 1-D numeric array: the sorted list of distinct values. -/
def npUnique (values : List ℚ) : List ℚ :=
  List.insertionSort (· ≤ ·) values.dedup

/-- `val_to_cat` (value_representation.py lines 138-176) on a 1-D numeric
list: `all_cat` maps the k-th element of `np.unique(values)` to `k` (the
`str` keying of the Python dict is injective on the distinct numeric values
of one dtype), and each input value is looked up in that dict — i.e. mapped
to its index in the sorted distinct list. -/
def val_to_cat (values : List ℚ) : List ℕ :=
  let all_cat := npUnique values
  values.map (fun v => all_cat.indexOf v)

/-! ## GUSA engine (modelled from the spec)

The uncertainty engine module itself is not part of this source tree; only
its test file is.  The definitions below are therefore modelled from the
spec (§3, §4, §7), faithful to its words, and the concrete instances are
translated from `test_uncertainty.py`. -/

/-- Modelled from the spec (§7, error taxonomy): the errors of the GUSA
engine whose source module is missing from the tree. -/
inductive UncError where
  | parameterMismatch
  | invalidSampleCount
  | allRowsFailed
  deriving DecidableEq, Repr

/-- Modelled from the spec (§3): a univariate distribution object.  The
tests use `sp.stats.uniform(loc, scale)`: inverse CDF (ppf)
`q ↦ loc + scale * q`, support `[loc, loc + scale]`. -/
structure UniformDistr where
  loc : ℚ
  scale : ℚ
  deriving DecidableEq, Repr

/-- The inverse CDF (quantile function) of `sp.stats.uniform(loc, scale)`. -/
def UniformDistr.ppf (dI : UniformDistr) (q : ℚ) : ℚ := dI.loc + dI.scale * q

/-- Membership in the support `[loc, loc + scale]` of
`sp.stats.uniform(loc, scale)`. -/
def UniformDistr.inSupport (dI : UniformDistr) (x : ℚ) : Prop :=
  dI.loc ≤ x ∧ x ≤ dI.loc + dI.scale

instance (dI : UniformDistr) (x : ℚ) : Decidable (dI.inSupport x) :=
  inferInstanceAs (Decidable (_ ∧ _))

/-- One insertion into a Python dict: an existing key keeps its position and
gets the new value, a new key is appended. -/
def dictInsert {α : Type} (d : List (String × α)) (k : String) (v : α) :
    List (String × α) :=
  if d.any (fun p => p.1 == k) then d.map (fun p => if p.1 == k then (k, v) else p)
  else d ++ [(k, v)]

/-- The Python dict built by inserting the pairs of `l` left to right into an
empty dict (e.g. a dict literal). -/
def dictOfList {α : Type} (l : List (String × α)) : List (String × α) :=
  l.foldl (fun dacc p => dictInsert dacc p.1 p.2) []

/-- Keep the first occurrence of every name, in order; `seen` accumulates the
names already emitted. -/
def firstDedupAux : List String → List String → List String
  | [], _ => []
  | a :: l, seen =>
    if a ∈ seen then firstDedupAux l seen else a :: firstDedupAux l (a :: seen)

/-- The ordered, de-duplicated name sequence: first occurrences, in order. -/
def firstDedup (l : List String) : List String := firstDedupAux l []

/-- Key-set equality of two name lists (the order-insensitive comparison of
`assignment` keys with `distributions` keys). -/
def sameKeys (a b : List String) : Bool :=
  a.all (fun x => b.contains x) && b.all (fun x => a.contains x)

/-- Modelled from the spec (§3, Parametrized Input): an uncertain model
ingredient, binding a generator (`unc_var`, the climada attribute name) to
named parameters with distributions (`distr_dict`, insertion-ordered).
Artifacts have type `α`; an assignment is a name → value association list. -/
structure UncVar (α : Type) where
  unc_var : List (String × ℚ) → α
  distr_dict : List (String × UniformDistr)

/-- Modelled from the spec (§3): `parameter_names`/`labels`, the ordered keys
of `distr_dict`.  A pure function of the `UncVar`, hence stable across
calls. -/
def UncVar.labels {α : Type} (uv : UncVar α) : List String :=
  uv.distr_dict.map Prod.fst

/-- Modelled from the spec (§4.1): `evaluate(assignment)` fails with
`ParameterMismatchError` if the assignment keys differ from the
`distributions` keys, and otherwise returns the generator's artifact at the
assignment.  Pure and side-effect-free by construction. -/
def UncVar.evaluate {α : Type} (uv : UncVar α) (assignment : List (String × ℚ)) :
    Except UncError α :=
  if sameKeys (assignment.map Prod.fst) uv.labels then .ok (uv.unc_var assignment)
  else .error .parameterMismatch

/-- climada `ImpactFunc`, restricted to the fields `test_uncertainty.py`
sets and compares (lines 63-68 and 179-201). -/
structure ImpactFunc where
  haz_type : String
  id : ℤ
  intensity_unit : String
  intensity : List ℚ
  mdd : List ℚ
  paa : List ℚ
  deriving DecidableEq, Repr

/-- `np.linspace a b num`: `num` evenly spaced points from `a` to `b`. -/
def linspace (a b : ℚ) (num : ℕ) : List ℚ :=
  (List.range num).map (fun i => a + (b - a) * i / ((num : ℚ) - 1))

/-- `xhi` (test_uncertainty.py lines 76-96):
`max([(v - vmin), 0]) / (v_half - vmin)`. -/
def xhi (v v_half vmin : ℚ) : ℚ := max (v - vmin) 0 / (v_half - vmin)

/-- Python `**` on floats, modelled for the nonnegative integer-valued
exponents the tests exercise (`k` defaults to 3 and is set to 1). -/
def ratPow (x k : ℚ) : ℚ :=
  if k.den = 1 ∧ 0 ≤ k.num then x ^ k.num.toNat else 0

/-- `imp_fun_param` (test_uncertainty.py lines 98-122):
`G * xhi(v)**k / (1 + xhi(v)**k)`. -/
def imp_fun_param (v G v_half vmin k : ℚ) : ℚ :=
  G * ratPow (xhi v v_half vmin) k / (1 + ratPow (xhi v v_half vmin) k)

/-- `imp_fun_tc` (test_uncertainty.py lines 39-74): the parametrized impact
function set — one `ImpactFunc` with `haz_type = 'TC'`, `intensity =
np.linspace(0, 150, num=100)`, `mdd` all ones, and `paa` the Knutson 2011
curve at each intensity; the `ImpactFuncSet` holding it is the one-element
list.  `imp_fun.check()` validates and adds nothing. -/
def imp_fun_tc (G v_half vmin k : ℚ) (i_d : ℤ) : List ImpactFunc :=
  let intensity := linspace 0 150 100
  [{ haz_type := "TC"
     id := i_d
     intensity_unit := "m/s"
     intensity := intensity
     mdd := List.replicate intensity.length 1
     paa := intensity.map (fun v => imp_fun_param v G v_half vmin k) }]

/-- Value of a named parameter in an assignment, with the Python keyword
default used when the name is absent. -/
def lookupQ (assignment : List (String × ℚ)) (kname : String) (dflt : ℚ) : ℚ :=
  match assignment.find? (fun p => p.1 == kname) with
  | some p => p.2
  | none => dflt

/-- `imp_fun_tc` as a generator over named assignments, with the keyword
defaults of test_uncertainty.py line 39
(`G=1, v_half=84.7, vmin=25.7, k=3, _id=1`). -/
def imp_fun_tc_gen (assignment : List (String × ℚ)) : List ImpactFunc :=
  imp_fun_tc (lookupQ assignment "G" 1) (lookupQ assignment "v_half" (847 / 10))
    (lookupQ assignment "vmin" (257 / 10)) (lookupQ assignment "k" 3) 1

/-- The `distr_dict` of `test_uncertainty.py` lines 157-161:
`{"G": uniform(0.8, 1), "v_half": uniform(50, 100), "vmin": uniform(15, 30),
"k": uniform(1, 5)}`. -/
def tcDistrDict : List (String × UniformDistr) :=
  dictOfList
    [("G", ⟨4 / 5, 1⟩), ("v_half", ⟨50, 100⟩), ("vmin", ⟨15, 30⟩), ("k", ⟨1, 5⟩)]

/-- `UncVar(imp_fun_tc, distr_dict)` of `test_uncertainty.py` line 162. -/
def tcUncVar : UncVar (List ImpactFunc) := ⟨imp_fun_tc_gen, tcDistrDict⟩

/-- Row `i` of the `AB` block: a copy of `a` with coordinate `i` taken from
`b`. -/
def mixRow (a b : List ℚ) (i : ℕ) : List ℚ :=
  (a.zip b).enum.map (fun p => if p.1 = i then p.2.2 else p.2.1)

/-- Modelled from the spec (§3, §4.2): the Saltelli rows contributed by one
base point `(a, b)` of the unit hypercube (each of dimension `d`): the `A`
row, the `d` rows `AB_i`, with second-order estimation also the `d` rows
`BA_i`, and the `B` row — `d + 2` rows, or `2d + 2` with second order. -/
def saltelliBlock (second : Bool) (a b : List ℚ) : List (List ℚ) :=
  [a] ++ (List.range a.length).map (mixRow a b)
    ++ (if second then (List.range a.length).map (mixRow b a) else []) ++ [b]

/-- Modelled from the spec (§4.2): the Sobol-style Sample Design built from
`n_samples` base points — the concatenation of the per-base-point Saltelli
blocks. -/
def saltelliSample (second : Bool) (base : List (List ℚ × List ℚ)) :
    List (List ℚ) :=
  base.flatMap (fun p => saltelliBlock second p.1 p.2)

/-- Modelled from the spec (§3, Evaluation Result Table; §4.3 sequential
mode): one entry per design row, in row order; a row whose closure raised is
retained at its position with the sentinel `none`. -/
def resultTable {μ : Type} (f : List ℚ → Except String μ) (design : List (List ℚ)) :
    List (Option μ) :=
  design.map (fun row => (f row).toOption)

/-- Modelled from the spec (§4.3): the recorded indices of failed (sentinel)
rows of a Result Table. -/
def failedRows {μ : Type} (table : List (Option μ)) : List ℕ :=
  (List.range table.length).filter (fun j => (table.getD j none).isNone)

/-- Modelled from the spec (§7): the failure report of a completed run — the
Result Table plus the count and indices of failed rows. -/
structure EvalReport (μ : Type) where
  table : List (Option μ)
  n_fail : ℕ
  failed_rows : List ℕ
  deriving DecidableEq, Repr

/-- Modelled from the spec (§4.3, §7): the evaluation orchestrator.  Each
row's closure failure is caught and recorded as a sentinel; the run is
aborted with `AllRowsFailedError` only when every row of a (nonempty) design
failed, and otherwise returns the Result Table with the failure report. -/
def calc_distribution {μ : Type} (f : List ℚ → Except String μ)
    (design : List (List ℚ)) : Except UncError (EvalReport μ) :=
  let table := resultTable f design
  let failed := failedRows table
  if 0 < design.length ∧ failed.length = design.length then .error .allRowsFailed
  else .ok ⟨table, failed.length, failed⟩

instance {ε α : Type} [DecidableEq ε] [DecidableEq α] :
    DecidableEq (Except ε α) := fun x y =>
  match x, y with
  | .ok a, .ok b =>
    if h : a = b then isTrue (by rw [h])
    else isFalse (by intro hc; injection hc with h2; exact h h2)
  | .ok _, .error _ => isFalse (by intro hc; cases hc)
  | .error _, .ok _ => isFalse (by intro hc; cases hc)
  | .error e, .error e2 =>
    if h : e = e2 then isTrue (by rw [h])
    else isFalse (by intro hc; injection hc with h2; exact h h2)

/-- A model closure that raises on every row. -/
def failAll : List ℚ → Except String ℚ := fun _ => .error "model failure"

/-- A model closure that raises exactly on the row `[2]` of the concrete
three-row design `[[1], [2], [3]]` and succeeds elsewhere. -/
def failOnRow2 : List ℚ → Except String ℚ :=
  fun row => if row = [2] then .error "model failure" else .ok 0

/-- Modelled from the spec (§4.3 parallel mode, §5, §9): parallel evaluation
with workers completing in the order `order` (a permutation of the row
indices).  Each completion `(i, result_i)` writes slot `i` of a pre-sized
result array; no slot is written twice. -/
def par_eval {μ : Type} (f : List ℚ → Except String μ) (design : List (List ℚ))
    (order : List ℕ) : List (Option μ) :=
  let completions := order.map
    (fun i => (i, (design[i]?).bind (fun row => (f row).toOption)))
  completions.foldl (fun acc p => acc.set p.1 p.2) (List.replicate design.length none)

/-- Modelled from the spec (§3, §4.2): the Sample Design column transform —
every unit-interval draw is mapped through the corresponding parameter's
inverse CDF, pairing the row positionally with the declared distributions. -/
def transformRow (distrs : List UniformDistr) (urow : List ℚ) : List ℚ :=
  (urow.zip distrs).map (fun p => p.2.ppf p.1)

/-- Modelled from the spec (§4.2): the whole unit-hypercube sample mapped
through the inverse CDFs, row by row. -/
def transformDesign (distrs : List UniformDistr) (unit : List (List ℚ)) :
    List (List ℚ) :=
  unit.map (transformRow distrs)

/-- The distribution list of the four TC parameters, in column order. -/
def tcDistrs : List UniformDistr :=
  [⟨4 / 5, 1⟩, ⟨50, 100⟩, ⟨15, 30⟩, ⟨1, 5⟩]

/-! ## Theorems -/

/-- C8: `sig_dig` is not total at zero — whenever `n_sig_dig` is smaller than
the number of characters of `str(0.0)` with the decimal point removed (= 2),
the guard `n_sig_dig >= num_of_digits` fails and `math.log10(abs(0))` raises
a math domain error instead of returning 0: the zero input reaches the
logarithm unguarded. -/
theorem sig_dig_zero_not_total (n_sig_dig : ℤ)
    (h : n_sig_dig < (num_of_digits 0 : ℤ)) :
    sig_dig 0 n_sig_dig = .error .domainError := by
  have h1 : ¬ ((num_of_digits 0 : ℤ) ≤ n_sig_dig) := by omega
  simp [sig_dig, h1]

/-- Witness for C8 at the concrete input `sig_dig(0.0, 1)`. -/
theorem sig_dig_zero_not_total_witness : sig_dig 0 1 = .error .domainError :=
  sig_dig_zero_not_total 1 (by decide)

set_option maxRecDepth 8000 in
/-- C9 counterexample: with an `abbreviations` mapping whose insertion order
is not ascending in the keys, the fallback divisor on a missing key
(`values = [0.001]` gives `thsder = int(10**-3) = 0`, not a key) is the LAST
item's key (here 1, name ""), not the largest key (here 1000000 with name
"M"): the result is `([1/1000], "")` rather than
`([1/1000 / 10^6], "M")`. -/
theorem value_to_monetary_unit_not_largest_key :
    ((1000000, "M") ∈ customAbbrev ∧ ∀ p ∈ customAbbrev, p.1 ≤ 1000000) ∧
    (∀ p ∈ customAbbrev, p.1 ≠ thsderOf (3 * ((avg_exp (1 / 1000) []).fdiv 3))) ∧
    value_to_monetary_unit [1 / 1000] customAbbrev = some ([1 / 1000], "") ∧
    value_to_monetary_unit [1 / 1000] customAbbrev ≠
      some ([1 / 1000 / 1000000], "M") := by
  with_unfolding_all decide

/-- C9 (amended): for every nonempty values list whose computed thousands
divisor is not a key of the abbreviations mapping, the function does not
raise: it falls back to the LAST item of the mapping in insertion order —
which for the default ascending `ABBREV` is the largest key — dividing all
values by that item's key and returning that item's name as the unit. -/
theorem value_to_monetary_unit_fallback_last (v : ℚ) (vs : List ℚ)
    (abbreviations : List (ℤ × String)) (k : ℤ) (nm : String)
    (hlast : abbreviations.getLast? = some (k, nm)) (hk : k ≠ 0)
    (hmiss : ∀ p ∈ abbreviations, p.1 ≠ thsderOf (3 * ((avg_exp v vs).fdiv 3))) :
    value_to_monetary_unit (v :: vs) abbreviations =
      some ((v :: vs).map (fun x => x / (k : ℚ)), nm) := by
  have hfind : abbreviations.find?
      (fun p => p.1 == thsderOf (3 * ((avg_exp v vs).fdiv 3))) = none := by
    rw [List.find?_eq_none]
    intro p hp
    simpa using hmiss p hp
  simp only [value_to_monetary_unit, hfind, hlast, if_neg hk]

/-- Witness for C9 (amended) at `values = [0.001]` with the default `ABBREV`:
the computed divisor `int(10**-3) = 0` is not a key, and the result divides
by the last (= largest) key `10^12` with unit "Tn". -/
theorem value_to_monetary_unit_fallback_last_witness :
    value_to_monetary_unit ((1 / 1000 : ℚ) :: []) ABBREV =
      some (((1 / 1000 : ℚ) :: []).map (fun x => x / ((1000000000000 : ℤ) : ℚ)),
        "Tn") :=
  value_to_monetary_unit_fallback_last (1 / 1000 : ℚ) [] ABBREV 1000000000000
    "Tn" (by decide) (by decide) (by with_unfolding_all decide)

/-- In a strictly sorted rational list, the index of a member equals the
number of list elements strictly smaller than it. -/
theorem indexOf_eq_length_filter_lt (l : List ℚ) (hl : l.Pairwise (· < ·))
    (v : ℚ) (hv : v ∈ l) :
    l.indexOf v = (l.filter (fun w => w < v)).length := by
  induction l with
  | nil => cases hv
  | cons a t ih =>
    rw [List.pairwise_cons] at hl
    by_cases hav : a = v
    · subst hav
      rw [List.indexOf_cons_self, List.filter_cons]
      have h1 : ¬ (decide (a < a) = true) := by simp
      rw [if_neg h1]
      have h2 : t.filter (fun w => w < a) = [] := by
        rw [List.filter_eq_nil_iff]
        intro b hb
        simp only [decide_eq_true_eq]
        exact not_lt_of_gt (hl.1 b hb)
      rw [h2]
      rfl
    · have hvt : v ∈ t := by
        rcases List.mem_cons.1 hv with h | h
        · exact absurd h.symm hav
        · exact h
      have hlt : a < v := hl.1 v hvt
      rw [List.indexOf_cons_ne t hav, List.filter_cons]
      have h1 : decide (a < v) = true := by simpa using hlt
      rw [if_pos h1, List.length_cons, ih hl.2 hvt]

/-- C10: each element of `val_to_cat values` is the rank of the corresponding
input among the sorted distinct inputs — the number of distinct input values
strictly smaller than it — so equal inputs get equal category numbers; in
particular `val_to_cat [1, 2, 1, 2, 2, 10] = [0, 1, 0, 1, 1, 2]`. -/
theorem val_to_cat_rank :
    (∀ (values : List ℚ) (i : ℕ) (v : ℚ), values[i]? = some v →
        (val_to_cat values)[i]? =
          some ((values.dedup.filter (fun w => w < v)).length)) ∧
    val_to_cat [1, 2, 1, 2, 2, 10] = [0, 1, 0, 1, 1, 2] := by
  constructor
  · intro values i v hv
    have hmem : v ∈ values := List.getElem?_mem hv
    simp only [val_to_cat, List.getElem?_map, hv, Option.map_some']
    congr 1
    have hperm : (npUnique values).Perm values.dedup :=
      List.perm_insertionSort _ _
    have hle : (npUnique values).Pairwise (· ≤ ·) :=
      List.sorted_insertionSort _ _
    have hnd : (npUnique values).Nodup :=
      hperm.nodup_iff.2 (List.nodup_dedup values)
    have hsorted : (npUnique values).Pairwise (· < ·) :=
      (hle.and hnd).imp (fun h => lt_of_le_of_ne h.1 h.2)
    have hvmem : v ∈ npUnique values := hperm.mem_iff.2 (List.mem_dedup.2 hmem)
    rw [indexOf_eq_length_filter_lt _ hsorted v hvmem,
      ← List.countP_eq_length_filter, ← List.countP_eq_length_filter]
    exact hperm.countP_eq _
  · decide

/-- Witness for C10 at `values = [1, 2, 1, 2, 2, 10]`, `i = 5`: the element
10 has 2 distinct inputs below it. -/
theorem val_to_cat_rank_witness :
    (val_to_cat [1, 2, 1, 2, 2, 10])[5]? =
      some ((([1, 2, 1, 2, 2, 10] : List ℚ).dedup.filter
        (fun w => w < 10)).length) :=
  val_to_cat_rank.1 [1, 2, 1, 2, 2, 10] 5 10 (by decide)

/-- C1: for every assignment whose keys equal the declared distribution keys,
`evaluate` — a pure function — returns exactly the artifact of the bound
generator at the same named parameter values; concretely, evaluating the TC
`UncVar` at `{G: 1, v_half: 100, vmin: 0, k: 1}` yields the impact-function
set of `imp_fun_tc(G=1, v_half=100, vmin=0, k=1)`, field by field. -/
theorem UncVar.evaluate_eq_generator :
    (∀ (α : Type) (uv : UncVar α) (assignment : List (String × ℚ)),
        sameKeys (assignment.map Prod.fst) uv.labels = true →
        uv.evaluate assignment = .ok (uv.unc_var assignment)) ∧
    tcUncVar.evaluate [("G", 1), ("v_half", 100), ("vmin", 0), ("k", 1)] =
      .ok (imp_fun_tc 1 100 0 1 1) := by
  constructor
  · intro α uv assignment h
    simp [UncVar.evaluate, h]
  · rfl

/-- Witness for C1 at the concrete TC assignment. -/
theorem UncVar.evaluate_eq_generator_witness :
    tcUncVar.evaluate [("G", 1), ("v_half", 100), ("vmin", 0), ("k", 1)] =
      .ok (tcUncVar.unc_var [("G", 1), ("v_half", 100), ("vmin", 0), ("k", 1)]) :=
  UncVar.evaluate_eq_generator.1 _ tcUncVar _ (by decide)

/-- Overwriting an existing key leaves the key sequence unchanged; a new key
is appended. -/
theorem keys_dictInsert {α : Type} (d : List (String × α)) (k : String) (v : α) :
    (dictInsert d k v).map Prod.fst =
      if k ∈ d.map Prod.fst then d.map Prod.fst else d.map Prod.fst ++ [k] := by
  by_cases h : k ∈ d.map Prod.fst
  · rw [if_pos h]
    have hany : d.any (fun p => p.1 == k) = true := by
      rw [List.any_eq_true]
      rcases List.mem_map.1 h with ⟨p, hp, hpk⟩
      exact ⟨p, hp, by simp [hpk]⟩
    rw [dictInsert, if_pos hany, List.map_map]
    apply List.map_congr_left
    intro p hp
    simp only [Function.comp_apply]
    by_cases hpk : p.1 == k
    · rw [if_pos hpk]
      exact (beq_iff_eq.1 hpk).symm
    · rw [if_neg hpk]
  · have hany : ¬ d.any (fun p => p.1 == k) = true := by
      rw [List.any_eq_true]
      rintro ⟨p, hp, hpk⟩
      exact h (List.mem_map.2 ⟨p, hp, beq_iff_eq.1 hpk⟩)
    rw [if_neg h, dictInsert, if_neg hany, List.map_append]
    rfl

/-- `firstDedupAux` only consults the membership of `seen`. -/
theorem firstDedupAux_congr (l : List String) :
    ∀ s t : List String, (∀ x, x ∈ s ↔ x ∈ t) →
      firstDedupAux l s = firstDedupAux l t := by
  induction l with
  | nil => intro s t h; rfl
  | cons a l ih =>
    intro s t h
    rw [firstDedupAux, firstDedupAux]
    by_cases ha : a ∈ s
    · rw [if_pos ha, if_pos ((h a).1 ha)]
      exact ih s t h
    · rw [if_neg ha, if_neg (fun hc => ha ((h a).2 hc))]
      rw [ih (a :: s) (a :: t) (fun x => by simp [List.mem_cons, h x])]

/-- Invariant of dict building: the final key sequence is the starting keys
followed by the first occurrences of the inserted keys not already seen. -/
theorem keys_foldl_dictInsert {α : Type} (l : List (String × α)) :
    ∀ d : List (String × α),
      (l.foldl (fun dacc p => dictInsert dacc p.1 p.2) d).map Prod.fst =
        d.map Prod.fst ++ firstDedupAux (l.map Prod.fst) (d.map Prod.fst) := by
  induction l with
  | nil => intro d; simp [firstDedupAux]
  | cons p l ih =>
    intro d
    rw [List.foldl_cons, ih (dictInsert d p.1 p.2), List.map_cons, firstDedupAux,
      keys_dictInsert]
    by_cases h : p.1 ∈ d.map Prod.fst
    · rw [if_pos h, if_pos h]
    · rw [if_neg h, if_neg h,
        firstDedupAux_congr (l.map Prod.fst) (d.map Prod.fst ++ [p.1])
          (p.1 :: d.map Prod.fst)
          (fun x => by simp [List.mem_append, List.mem_cons, or_comm])]
      simp

/-- C2: the labels of a Parametrized Input built from any insertion sequence
are the ordered, de-duplicated keys in insertion order (first occurrences);
`labels` is a pure function of the `UncVar`, so every call observing it after
construction returns the same sequence.  Concretely, the TC `distr_dict`
yields `['G', 'v_half', 'vmin', 'k']` — insertion order, not alphabetical. -/
theorem UncVar.labels_insertion_order :
    (∀ (α : Type) (g : List (String × ℚ) → α) (l : List (String × UniformDistr)),
        (UncVar.mk g (dictOfList l)).labels = firstDedup (l.map Prod.fst)) ∧
    tcUncVar.labels = ["G", "v_half", "vmin", "k"] := by
  constructor
  · intro α g l
    show (dictOfList l).map Prod.fst = firstDedup (l.map Prod.fst)
    rw [dictOfList, keys_foldl_dictInsert l [], firstDedup]
    rfl
  · rfl

/-- The Saltelli block of a base pair of dimension `a.length` has
`a.length + 2` rows, or `2 * a.length + 2` with second-order estimation. -/
theorem saltelliBlock_length (second : Bool) (a b : List ℚ) :
    (saltelliBlock second a b).length =
      (if second then 2 * a.length + 2 else a.length + 2) := by
  cases second
  · simp [saltelliBlock, List.length_append, List.length_map, List.length_range]
    try omega
  · simp [saltelliBlock, List.length_append, List.length_map, List.length_range]
    try omega

/-- C3: with second-order interaction estimation disabled, the realized
Sample Design row count over `d` parameters and `n_samples = N` base points
is the deterministic value `N * (d + 2)`; in particular 4 parameters and
`N = 10` give exactly 60 rows. -/
theorem saltelliSample_rows :
    (∀ (d N : ℕ) (base : List (List ℚ × List ℚ)),
        base.length = N → (∀ p ∈ base, p.1.length = d) →
        (saltelliSample false base).length = N * (d + 2)) ∧
    (saltelliSample false
      (List.replicate 10 (List.replicate 4 (1 / 2 : ℚ),
        List.replicate 4 (1 / 2 : ℚ)))).length = 10 * (4 + 2) := by
  constructor
  · intro d N base hN hall
    subst hN
    induction base with
    | nil => simp [saltelliSample]
    | cons p base ih =>
      have hblock : saltelliSample false (p :: base) =
          saltelliBlock false p.1 p.2 ++ saltelliSample false base := by
        rw [saltelliSample, List.flatMap_cons]
        rfl
      rw [hblock, List.length_append, saltelliBlock_length,
        hall p (List.mem_cons_self p base),
        ih (fun q hq => hall q (List.mem_cons_of_mem p hq))]
      simp [List.length_cons]
      ring
  · rfl

/-- Witness for C3 at the `test_uncertainty.py` scenario: `d = 4`, `N = 10`,
second order disabled, 60 rows. -/
theorem saltelliSample_rows_witness :
    (saltelliSample false
      (List.replicate 10 (List.replicate 4 (1 / 2 : ℚ),
        List.replicate 4 (1 / 2 : ℚ)))).length = 10 * (4 + 2) :=
  saltelliSample_rows.1 4 10 _ (by rfl) (by decide)

/-- Filtering `range n` by equality with `i < n` leaves exactly `[i]`. -/
theorem range_filter_beq_single (n i : ℕ) (h : i < n) :
    (List.range n).filter (fun j => j == i) = [i] := by
  induction n with
  | zero => omega
  | succ n ih =>
    rw [List.range_succ, List.filter_append]
    by_cases hin : i < n
    · rw [ih hin]
      have h1 : List.filter (fun j => j == i) [n] = [] := by
        simp
        omega
      rw [h1, List.append_nil]
    · have hi : i = n := by omega
      subst hi
      have h1 : (List.range i).filter (fun j => j == i) = [] := by
        rw [List.filter_eq_nil_iff]
        intro a ha
        have := List.mem_range.1 ha
        simp
        omega
      rw [h1, List.nil_append]
      simp

/-- Filtering `range n` by a predicate that holds exactly at `i < n` leaves
exactly `[i]`. -/
theorem range_filter_eq_single (n i : ℕ) (p : ℕ → Bool) (h : i < n)
    (hp : ∀ j, j < n → (p j = true ↔ j = i)) :
    (List.range n).filter p = [i] := by
  have hcong : ∀ j ∈ List.range n, p j = (j == i) := by
    intro j hj
    have hjn := List.mem_range.1 hj
    by_cases hji : j = i
    · subst hji
      rw [(hp j hjn).2 rfl]
      simp
    · have h1 : ¬ p j = true := fun hc => hji ((hp j hjn).1 hc)
      rw [Bool.not_eq_true] at h1
      rw [h1]
      symm
      simpa using hji
  rw [List.filter_congr hcong, range_filter_beq_single n i h]

/-- C4 counterexample: on the one-row design `[[0]]`, a closure that raises
on exactly one row (its only one) and succeeds on all (zero) others makes
every row fail, so the orchestrator aborts with `AllRowsFailedError` instead
of completing with a Result Table. -/
theorem calc_distribution_single_row_aborts :
    (failAll [(0 : ℚ)]).toOption = none ∧
    (∀ (j : ℕ), j < ([[(0 : ℚ)]] : List (List ℚ)).length → j = 0) ∧
    calc_distribution failAll [[(0 : ℚ)]] = .error .allRowsFailed := by
  decide

/-- C4 (amended): for every design with at least two rows and a closure
failing on exactly one row `i`, the run completes rather than aborting: the
Result Table has one entry per design row with exactly row `i` the sentinel
and every other row the closure's value, and the report records failure
count 1 and failed indices `[i]`. -/
theorem calc_distribution_isolates_single_failure {μ : Type}
    (f : List ℚ → Except String μ) (design : List (List ℚ)) (i : ℕ)
    (hi : i < design.length) (h2 : 2 ≤ design.length)
    (hfail : (f design[i]).toOption = none)
    (hok : ∀ (j : ℕ) (h : j < design.length), j ≠ i →
      ((f design[j]).toOption).isSome = true) :
    calc_distribution f design = .ok ⟨resultTable f design, 1, [i]⟩ ∧
    (resultTable f design).length = design.length ∧
    (resultTable f design).getD i none = none ∧
    (∀ (j : ℕ), j < design.length → j ≠ i →
      ((resultTable f design).getD j none).isSome = true) := by
  have key : ∀ (j : ℕ) (hj : j < design.length),
      (resultTable f design).getD j none = (f design[j]).toOption := by
    intro j hj
    rw [resultTable, List.getD_eq_getElem?_getD, List.getElem?_map,
      List.getElem?_eq_getElem hj]
    rfl
  have tlen : (resultTable f design).length = design.length := by
    simp [resultTable]
  have hfr : failedRows (resultTable f design) = [i] := by
    rw [failedRows, tlen]
    apply range_filter_eq_single _ _ _ hi
    intro j hj
    constructor
    · intro hc
      by_contra hji
      have hs := hok j hj hji
      rw [key j hj] at hc
      rw [Option.isNone_iff_eq_none] at hc
      rw [hc] at hs
      cases hs
    · intro hji
      subst hji
      rw [key j hj, hfail]
      rfl
  refine ⟨?_, tlen, ?_, ?_⟩
  · rw [calc_distribution]
    simp only [hfr]
    have hcond : ¬ (0 < design.length ∧
        ([i] : List ℕ).length = design.length) := by
      simp only [List.length_singleton]
      omega
    rw [if_neg hcond]
    rfl
  · rw [key i hi, hfail]
  · intro j hj hji
    rw [key j hj]
    exact hok j hj hji

/-- Witness for C4 (amended) on the three-row design `[[1], [2], [3]]` with
the closure failing exactly on row 1. -/
theorem calc_distribution_isolates_single_failure_witness :
    calc_distribution failOnRow2 [[1], [2], [3]] =
      .ok ⟨resultTable failOnRow2 [[1], [2], [3]], 1, [1]⟩ ∧
    (resultTable failOnRow2 [[1], [2], [3]]).length =
      ([[1], [2], [3]] : List (List ℚ)).length ∧
    (resultTable failOnRow2 [[1], [2], [3]]).getD 1 none = none ∧
    (∀ (j : ℕ), j < ([[1], [2], [3]] : List (List ℚ)).length → j ≠ 1 →
      ((resultTable failOnRow2 [[1], [2], [3]]).getD j none).isSome = true) :=
  calc_distribution_isolates_single_failure failOnRow2 [[1], [2], [3]] 1
    (by decide) (by decide) (by decide) (by decide)

/-- C5: if the model closure raises on every row of a (nonempty) design, the
orchestrator raises `AllRowsFailedError` and no Result Table is returned;
and in every other case no row-level error propagates out of the
orchestrator — `allRowsFailed` is the only error `calc_distribution` can
return. -/
theorem calc_distribution_all_failed {μ : Type}
    (f : List ℚ → Except String μ) (design : List (List ℚ))
    (hne : design ≠ [])
    (hfail : ∀ row ∈ design, (f row).toOption = none) :
    calc_distribution f design = .error .allRowsFailed ∧
    ∀ (ν : Type) (g : List ℚ → Except String ν) (design' : List (List ℚ))
      (e : UncError),
      calc_distribution g design' = .error e → e = .allRowsFailed := by
  constructor
  · have tlen : (resultTable f design).length = design.length := by
      simp [resultTable]
    have hall : failedRows (resultTable f design) =
        List.range design.length := by
      rw [failedRows, tlen]
      rw [List.filter_eq_self]
      intro j hj
      have hjn := List.mem_range.1 hj
      rw [resultTable, List.getD_eq_getElem?_getD, List.getElem?_map,
        List.getElem?_eq_getElem hjn]
      have := hfail design[j] (List.getElem_mem hjn)
      simp [this]
    rw [calc_distribution]
    simp only [hall]
    rw [if_pos ⟨List.length_pos.2 hne, List.length_range design.length⟩]
  · intro ν g design' e h
    rw [calc_distribution] at h
    by_cases hc : 0 < design'.length ∧
        (failedRows (resultTable g design')).length = design'.length
    · rw [if_pos hc] at h
      exact (Except.error.inj h).symm
    · rw [if_neg hc] at h
      cases h

/-- Witness for C5 on the two-row design `[[1], [2]]` with an always-raising
closure. -/
theorem calc_distribution_all_failed_witness :
    calc_distribution failAll [[1], [2]] = .error .allRowsFailed :=
  (calc_distribution_all_failed failAll [[1], [2]] (by decide) (by decide)).1

/-- Folding slot writes preserves the result array's length. -/
theorem foldl_set_length {μ : Type} (cs : List (ℕ × Option μ)) :
    ∀ acc : List (Option μ),
      (cs.foldl (fun a p => a.set p.1 p.2) acc).length = acc.length := by
  induction cs with
  | nil => intro acc; rfl
  | cons c cs ih =>
    intro acc
    rw [List.foldl_cons, ih, List.length_set]

/-- After writing `(i, g i)` for every `i` of `order` into slots of `acc`,
slot `j` holds `g j` when `j ∈ order` and its prior value otherwise. -/
theorem foldl_set_getElem? {μ : Type} (g : ℕ → Option μ) (order : List ℕ) :
    ∀ acc : List (Option μ), (∀ i ∈ order, i < acc.length) →
      ∀ j : ℕ,
        ((order.map (fun i => (i, g i))).foldl
          (fun a p => a.set p.1 p.2) acc)[j]? =
          if j ∈ order then some (g j) else acc[j]? := by
  induction order with
  | nil =>
    intro acc hlt j
    simp
  | cons i order ih =>
    intro acc hlt j
    rw [List.map_cons, List.foldl_cons]
    rw [ih (acc.set i (g i))
      (fun x hx => by rw [List.length_set]; exact hlt x (List.mem_cons_of_mem i hx)) j]
    by_cases hj : j ∈ order
    · rw [if_pos hj, if_pos (List.mem_cons_of_mem i hj)]
    · rw [if_neg hj]
      by_cases hij : j = i
      · subst hij
        rw [if_pos (List.mem_cons_self j order),
          List.getElem?_set_self (hlt j (List.mem_cons_self j order))]
      · rw [List.getElem?_set_ne (fun hc => hij hc.symm),
          if_neg (by simp [List.mem_cons, hij, hj])]

/-- C6: for every permutation of worker completion order, parallel evaluation
of a deterministic closure returns a Result Table identical, row for row in
row-index order, to the sequential Result Table of the same design. -/
theorem par_eval_eq_resultTable {μ : Type} (f : List ℚ → Except String μ)
    (design : List (List ℚ)) (order : List ℕ)
    (hperm : order.Perm (List.range design.length)) :
    par_eval f design order = resultTable f design := by
  have hmem : ∀ x : ℕ, x ∈ order ↔ x < design.length := by
    intro x
    rw [hperm.mem_iff, List.mem_range]
  apply List.ext_getElem?
  intro j
  rw [par_eval]
  rw [foldl_set_getElem?
    (fun i => design[i]?.bind (fun row => (f row).toOption)) order
    (List.replicate design.length none)
    (fun x hx => by rw [List.length_replicate]; exact (hmem x).1 hx) j]
  by_cases hj : j < design.length
  · rw [if_pos ((hmem j).2 hj), resultTable, List.getElem?_map,
      List.getElem?_eq_getElem hj]
    rfl
  · rw [if_neg (fun hc => hj ((hmem j).1 hc))]
    rw [List.getElem?_eq_none (by rw [List.length_replicate]; omega),
      List.getElem?_eq_none (by rw [resultTable, List.length_map]; omega)]

/-- Witness for C6 on the three-row design with completion order `[2, 0, 1]`. -/
theorem par_eval_eq_resultTable_witness :
    par_eval failOnRow2 [[1], [2], [3]] [2, 0, 1] =
      resultTable failOnRow2 [[1], [2], [3]] :=
  par_eval_eq_resultTable failOnRow2 [[1], [2], [3]] [2, 0, 1] (by decide)

/-- C7: every entry of the built Sample Design lies within the support of its
parameter's declared distribution — the columns hold native-domain values
obtained by the inverse CDF, never raw unit-interval draws. -/
theorem transformDesign_in_support (distrs : List UniformDistr)
    (unit : List (List ℚ)) (hs : ∀ dI ∈ distrs, 0 ≤ dI.scale)
    (hu : ∀ row ∈ unit, ∀ q ∈ row, 0 ≤ q ∧ q ≤ 1) :
    ∀ row ∈ unit, ∀ (k : ℕ) (x : ℚ) (dI : UniformDistr),
      (transformRow distrs row)[k]? = some x → distrs[k]? = some dI →
      dI.inSupport x := by
  intro row hrow k x dI hx hd
  rw [transformRow, List.getElem?_map] at hx
  cases hz : (row.zip distrs)[k]? with
  | none =>
    rw [hz] at hx
    cases hx
  | some p =>
    rw [hz] at hx
    have hp := List.getElem?_zip_eq_some.1 hz
    have hdq : p.2 = dI := by
      rw [hp.2] at hd
      exact Option.some.inj hd
    have hxv : x = p.2.ppf p.1 := (Option.some.inj hx).symm
    have hqin := hu row hrow p.1 (List.getElem?_mem hp.1)
    have hsc : 0 ≤ p.2.scale := hs p.2 (List.getElem?_mem hp.2)
    rw [← hdq, hxv, UniformDistr.inSupport, UniformDistr.ppf]
    constructor
    · have h1 : 0 ≤ p.2.scale * p.1 := mul_nonneg hsc hqin.1
      linarith
    · have h1 : p.2.scale * p.1 ≤ p.2.scale := by
        calc p.2.scale * p.1 ≤ p.2.scale * 1 :=
              mul_le_mul_of_nonneg_left hqin.2 hsc
        _ = p.2.scale := mul_one _
      linarith

/-- Witness for C7: the TC distributions at the unit-hypercube row
`[1/2, 1/2, 1/2, 1/2]`; column 0 maps to `0.8 + 1 * 0.5 = 1.3`, inside the
support `[0.8, 1.8]` of `uniform(0.8, 1)`. -/
theorem transformDesign_in_support_witness :
    (⟨4 / 5, 1⟩ : UniformDistr).inSupport (13 / 10) :=
  transformDesign_in_support tcDistrs [[1 / 2, 1 / 2, 1 / 2, 1 / 2]]
    (by decide)
    (by with_unfolding_all decide)
    [1 / 2, 1 / 2, 1 / 2, 1 / 2] (List.mem_singleton.2 rfl) 0 (13 / 10)
    ⟨4 / 5, 1⟩ (by with_unfolding_all decide) (by rfl)

/-- Sanity of the fuelled floor log: with enough fuel it satisfies the
defining property of `⌊log10 n⌋`. -/
theorem natLog10Aux_spec (fuel : ℕ) :
    ∀ n : ℕ, 1 ≤ n → n ≤ fuel →
      10 ^ natLog10Aux fuel n ≤ n ∧ n < 10 ^ (natLog10Aux fuel n + 1) := by
  induction fuel with
  | zero =>
    intro n h1 h2
    omega
  | succ fuel ih =>
    intro n h1 h2
    rw [natLog10Aux]
    by_cases h10 : n < 10
    · rw [if_pos h10]
      constructor
      · simpa using h1
      · simpa using h10
    · rw [if_neg h10]
      obtain ⟨ha, hb⟩ := ih (n / 10) (by omega) (by omega)
      constructor
      · calc 10 ^ (natLog10Aux fuel (n / 10) + 1)
              = 10 ^ natLog10Aux fuel (n / 10) * 10 := pow_succ 10 _
          _ ≤ (n / 10) * 10 := Nat.mul_le_mul_right 10 ha
          _ ≤ n := by omega
      · calc n < (n / 10 + 1) * 10 := by omega
          _ ≤ 10 ^ (natLog10Aux fuel (n / 10) + 1) * 10 :=
              Nat.mul_le_mul_right 10 (by omega)
          _ = 10 ^ (natLog10Aux fuel (n / 10) + 1 + 1) := (pow_succ 10 _).symm

/-- `natLog10 n` is `⌊log10 n⌋` for `n ≥ 1`:
`10 ^ natLog10 n ≤ n < 10 ^ (natLog10 n + 1)`. -/
theorem natLog10_spec (n : ℕ) (h : 1 ≤ n) :
    10 ^ natLog10 n ≤ n ∧ n < 10 ^ (natLog10 n + 1) :=
  natLog10Aux_spec n n h le_rfl

/-- Witness for the `natLog10` sanity lemma at `n = 1000`. -/
theorem natLog10_spec_witness :
    10 ^ natLog10 1000 ≤ 1000 ∧ 1000 < 10 ^ (natLog10 1000 + 1) :=
  natLog10_spec 1000 (by decide)

/-- Sanity of the fuelled ceiling log: with enough fuel it satisfies the
defining property of `⌈log10 n⌉`, the least `k` with `n ≤ 10 ^ k`. -/
theorem natClog10Aux_spec (fuel : ℕ) :
    ∀ n : ℕ, 2 ≤ n → n ≤ fuel →
      10 ^ (natClog10Aux fuel n - 1) < n ∧ n ≤ 10 ^ natClog10Aux fuel n := by
  induction fuel with
  | zero =>
    intro n h1 h2
    omega
  | succ fuel ih =>
    intro n h1 h2
    rw [natClog10Aux]
    rw [if_neg (by omega)]
    by_cases h10 : n ≤ 10
    · have hn : (n + 9) / 10 = 1 := by omega
      rw [hn]
      have h0 : natClog10Aux fuel 1 = 0 := by
        cases fuel
        · rfl
        · rw [natClog10Aux, if_pos (by omega)]
      rw [h0]
      constructor
      · simpa using h1
      · simpa using h10
    · have hd1 : 2 ≤ (n + 9) / 10 := by omega
      have hd2 : (n + 9) / 10 ≤ fuel := by omega
      obtain ⟨ha, hb⟩ := ih ((n + 9) / 10) hd1 hd2
      have hpos : 1 ≤ natClog10Aux fuel ((n + 9) / 10) := by
        by_contra hc
        have h0 : natClog10Aux fuel ((n + 9) / 10) = 0 := by omega
        rw [h0] at hb
        omega
      constructor
      · have h1' : 10 ^ (natClog10Aux fuel ((n + 9) / 10) + 1 - 1) =
            10 ^ (natClog10Aux fuel ((n + 9) / 10) - 1) * 10 := by
          rw [← pow_succ]
          congr 1
          omega
        rw [h1']
        omega
      · calc n ≤ (n + 9) / 10 * 10 := by omega
          _ ≤ 10 ^ natClog10Aux fuel ((n + 9) / 10) * 10 :=
              Nat.mul_le_mul_right 10 hb
          _ = 10 ^ (natClog10Aux fuel ((n + 9) / 10) + 1) := (pow_succ 10 _).symm

/-- `natClog10 n` is `⌈log10 n⌉` for `n ≥ 2`:
`10 ^ (natClog10 n - 1) < n ≤ 10 ^ natClog10 n` (and it is 0 at `n ≤ 1`). -/
theorem natClog10_spec (n : ℕ) (h : 2 ≤ n) :
    10 ^ (natClog10 n - 1) < n ∧ n ≤ 10 ^ natClog10 n :=
  natClog10Aux_spec n n h le_rfl

/-- Witness for the `natClog10` sanity lemma at `n = 1001`. -/
theorem natClog10_spec_witness :
    10 ^ (natClog10 1001 - 1) < 1001 ∧ 1001 ≤ 10 ^ natClog10 1001 :=
  natClog10_spec 1001 (by decide)
